import Mathlib

/-!
Shallow embedding of `quantum_teleportation_simulator.py`.

The program's core is a 3-qubit state-vector simulator driven by four
GUI-triggered phase functions (`initialize`, `alice_ops`, `measure`,
`bob_correction`) acting on three module-level globals (`state`, `psi`,
`alice_result`).  We embed:

* NumPy complex arrays of shape (r, c) as `NMat` (dimensions plus a total
  entry function, zero outside the r × c range);
* `np.kron`, matrix product `@`, scalar multiplication and addition;
* `np.linalg.norm` / the source's `normalize`;
* `measure_two_qubits`, with the call `np.random.choice(4, p=outcome_probs)`
  modelled by an injectable uniform draw `u : ℝ` turned into an index by
  inverse-CDF sampling over the renormalized group probabilities, and the
  exception `np.random.choice` raises when the probability vector is
  invalid (the `total = 0` case, where the Python renormalization produces
  NaNs) modelled as `Option.none`;
* the three globals as a `Sess` record, and each phase function as a
  `Sess`-transformer that also reports whether it ran or was stopped by its
  guard (`messagebox.showinfo` guard branches return the session unchanged).

Floating-point doubles are modelled by exact real/complex arithmetic.
-/

namespace QTS

open scoped Classical

noncomputable section

/-- A NumPy complex array of shape (r, c): explicit dimensions plus a total
entry function.  Every array built below is zero outside its `r × c` range,
mirroring the fact that a NumPy array simply has no entries there. -/
@[ext]
structure NMat where
  r : ℕ
  c : ℕ
  f : ℕ → ℕ → ℂ

/-- Matrix product, NumPy's `@`. -/
def mul (A B : NMat) : NMat :=
  ⟨A.r, B.c, fun i j => ∑ k ∈ Finset.range A.c, A.f i k * B.f k j⟩

/-- Entrywise sum (`+` on same-shape NumPy arrays). -/
def addM (A B : NMat) : NMat :=
  ⟨A.r, A.c, fun i j => A.f i j + B.f i j⟩

/-- Scalar multiplication (`z * array`). -/
def smulM (z : ℂ) (A : NMat) : NMat :=
  ⟨A.r, A.c, fun i j => z * A.f i j⟩

/-- `np.kron A B`: entry `(i, j)` is `A[i / B.r, j / B.c] * B[i % B.r, j % B.c]`. -/
def kron2 (A B : NMat) : NMat :=
  ⟨A.r * B.r, A.c * B.c,
    fun i j => A.f (i / B.r) (j / B.c) * B.f (i % B.r) (j % B.c)⟩

/-- Source `kron(*matrices)`: start from the first argument and fold
`np.kron` over the remaining ones, left to right. -/
def kron (A : NMat) (rest : List NMat) : NMat := rest.foldl kron2 A

/-- `np.linalg.norm`: square root of the summed squared magnitudes of all
entries (Frobenius norm; for column vectors the Euclidean norm). -/
def normOf (A : NMat) : ℝ :=
  Real.sqrt (∑ i ∈ Finset.range A.r, ∑ j ∈ Finset.range A.c, Complex.normSq (A.f i j))

/-- Source `normalize`: divide by the norm, except that an exactly-zero norm
returns the input unchanged. -/
def normalize (A : NMat) : NMat :=
  if normOf A = 0 then A else ⟨A.r, A.c, fun i j => A.f i j / ((normOf A : ℝ) : ℂ)⟩

/-- `zero = [[1], [0]]`, the ket |0⟩. -/
def zero : NMat := ⟨2, 1, fun i j => if i = 0 ∧ j = 0 then 1 else 0⟩

/-- `one = [[0], [1]]`, the ket |1⟩. -/
def one : NMat := ⟨2, 1, fun i j => if i = 1 ∧ j = 0 then 1 else 0⟩

/-- The bit-flip gate `X`. -/
def X : NMat :=
  ⟨2, 2, fun i j => if (i = 0 ∧ j = 1) ∨ (i = 1 ∧ j = 0) then 1 else 0⟩

/-- The phase-flip gate `Z`. -/
def Z : NMat :=
  ⟨2, 2, fun i j => if i = 0 ∧ j = 0 then 1 else if i = 1 ∧ j = 1 then -1 else 0⟩

/-- The Hadamard gate `H = (1/√2) [[1, 1], [1, -1]]`. -/
def H : NMat :=
  ⟨2, 2, fun i j =>
    if i < 2 ∧ j < 2 then
      (if i = 1 ∧ j = 1 then -((((Real.sqrt 2)⁻¹ : ℝ) : ℂ)) else (((Real.sqrt 2)⁻¹ : ℝ) : ℂ))
    else 0⟩

/-- `I = np.eye(2)`. -/
def I : NMat := ⟨2, 2, fun i j => if i = j ∧ i < 2 then 1 else 0⟩

/-- The controlled-not gate `CNOT` (control-major 4 × 4 matrix). -/
def CNOT : NMat :=
  ⟨4, 4, fun i j =>
    if (i = 0 ∧ j = 0) ∨ (i = 1 ∧ j = 1) ∨ (i = 2 ∧ j = 3) ∨ (i = 3 ∧ j = 2) then 1 else 0⟩

/-- `state.flatten()` for a column vector: the i-th amplitude. -/
def flat (st : NMat) (i : ℕ) : ℂ := st.f i 0

/-- `probs = np.abs(state)**2`, per flattened index. -/
def probs (st : NMat) (i : ℕ) : ℝ := Complex.normSq (flat st i)

/-- The fixed list `outcomes = [(0,0),(0,1),(1,0),(1,1)]`. -/
def outcomes : List (ℕ × ℕ) := [(0, 0), (0, 1), (1, 0), (1, 1)]

/-- The mask `[i for i in range(8) if [(i>>2)&1, (i>>1)&1] == [a, b]]`. -/
def mask (ab : ℕ × ℕ) : List ℕ :=
  (List.range 8).filter (fun i => ((i >>> 2) &&& 1 == ab.1) && ((i >>> 1) &&& 1 == ab.2))

/-- `probs[mask].sum()` for one outcome `(a, b)`. -/
def outcome_prob (st : NMat) (ab : ℕ × ℕ) : ℝ := ((mask ab).map (probs st)).sum

/-- `np.sum(outcome_probs)`. -/
def total (st : NMat) : ℝ := (outcomes.map (outcome_prob st)).sum

/-- The renormalized group probabilities `outcome_probs / np.sum(outcome_probs)`. -/
def pdist (st : NMat) (k : ℕ) : ℝ := outcome_prob st (outcomes.getD k (0, 0)) / total st

/-- `np.random.choice(4, p=outcome_probs)` with the random source made
explicit: a uniform draw `u ∈ [0, 1)` is mapped to the least index whose
cumulative renormalized probability exceeds it (inverse-CDF sampling of the
categorical distribution). -/
def choiceIdx (st : NMat) (u : ℝ) : ℕ :=
  if u < pdist st 0 then 0
  else if u < pdist st 0 + pdist st 1 then 1
  else if u < pdist st 0 + pdist st 1 + pdist st 2 then 2
  else 3

/-- `new_state = np.zeros_like(state); new_state[mask] = state[mask]`:
keep the amplitudes whose measured-qubit bits match `ab`, zero elsewhere. -/
def collapse (st : NMat) (ab : ℕ × ℕ) : NMat :=
  ⟨8, 1, fun i j => if j = 0 ∧ i ∈ mask ab then flat st i else 0⟩

/-- Source `measure_two_qubits`.  When all group probabilities are zero the
Python renormalization produces NaNs and `np.random.choice` raises
(`none` here); otherwise sample an outcome, collapse, and renormalize. -/
def measure_two_qubits (st : NMat) (u : ℝ) : Option ((ℕ × ℕ) × NMat) :=
  if total st = 0 then none
  else
    let outcome := outcomes.getD (choiceIdx st u) (0, 0)
    some (outcome, normalize (collapse st outcome))

/-- The module-level globals `state`, `psi`, `alice_result` (each starts as
Python `None`). -/
structure Sess where
  state : Option NMat
  psi : Option NMat
  alice_result : Option (ℕ × ℕ)

/-- The session at program start: all three globals are `None`. -/
def sess0 : Sess := ⟨none, none, none⟩

/-- How a phase function returned: it ran (`ok`), its guard stopped it with
a `messagebox.showinfo` notice (`phaseErr`), or a numerical exception
escaped (`numErr`, the `np.random.choice` failure). -/
inductive Res where
  | ok : Res
  | phaseErr : Res
  | numErr : Res
deriving DecidableEq

/-- Source `initialize` after the two `complex(...)` parses succeeded:
store `psi = normalize(alpha*zero + beta*one)` and
`state = kron(psi, bell)` with `bell = normalize(kron(zero,zero) + kron(one,one))`.
Note that the global `alice_result` is not touched. -/
def initState (alpha beta : ℂ) (s : Sess) : Sess :=
  let psi := normalize (addM (smulM alpha zero) (smulM beta one))
  let bell := normalize (addM (kron2 zero zero) (kron2 one one))
  { s with psi := some psi, state := some (kron2 psi bell) }

/-- `U_cnot = kron(CNOT, I)`. -/
def U_cnot : NMat := kron CNOT [I]

/-- `U_h = kron(H, I, I)`. -/
def U_h : NMat := kron H [I, I]

/-- Source `alice_ops`: guarded by `state is None`; otherwise left-multiply
by `U_cnot` and then by `U_h`. -/
def alice_ops (s : Sess) : Sess × Res :=
  match s.state with
  | Option.none => (s, Res.phaseErr)
  | Option.some st => ({ s with state := some (mul U_h (mul U_cnot st)) }, Res.ok)

/-- Source `measure`: guarded by `state is None`; otherwise call
`measure_two_qubits` and store its outcome and collapsed state.  If the
sampling raises, the globals are left unchanged (the tuple assignment never
happens). -/
def measure (u : ℝ) (s : Sess) : Sess × Res :=
  match s.state with
  | Option.none => (s, Res.phaseErr)
  | Option.some st =>
    match measure_two_qubits st u with
    | Option.none => (s, Res.numErr)
    | Option.some (out, ns) =>
      ({ s with state := some ns, alice_result := some out }, Res.ok)

/-- `state[-2:].reshape(2,1)`: the last two amplitudes as a column vector. -/
def lastTwo (A : NMat) : NMat :=
  ⟨2, 1, fun i j => if i < 2 ∧ j = 0 then A.f (A.r - 2 + i) 0 else 0⟩

/-- Source `bob_correction`: guarded by `state is None or alice_result is
None`; otherwise select the correction from the measured bits
((0,0) → I, (0,1) → X, (1,0) → Z, else Z @ X), apply `kron(I, I, correction)`
to the state, and report `normalize(state[-2:].reshape(2,1))` as Bob's final
qubit. -/
def bob_correction (s : Sess) : Sess × Res × Option NMat :=
  match s.state, s.alice_result with
  | Option.some st, Option.some ab =>
    let correction :=
      if ab = (0, 0) then I
      else if ab = (0, 1) then X
      else if ab = (1, 0) then Z
      else mul Z X
    let st2 := mul (kron I [I, correction]) st
    ({ s with state := some st2 }, Res.ok, some (normalize (lastTwo st2)))
  | _, _ => (s, Res.phaseErr, none)

/-! ### Basic facts about `normOf` and `normalize` -/

/-- The summed squared magnitudes of an array's entries. -/
def sumSq (A : NMat) : ℝ :=
  ∑ i ∈ Finset.range A.r, ∑ j ∈ Finset.range A.c, Complex.normSq (A.f i j)

lemma normOf_eq_sqrt (A : NMat) : normOf A = Real.sqrt (sumSq A) := rfl

lemma sumSq_nonneg (A : NMat) : 0 ≤ sumSq A :=
  Finset.sum_nonneg fun _ _ => Finset.sum_nonneg fun _ _ => Complex.normSq_nonneg _

lemma normOf_nonneg (A : NMat) : 0 ≤ normOf A := Real.sqrt_nonneg _

lemma sq_normOf (A : NMat) : normOf A ^ 2 = sumSq A :=
  Real.sq_sqrt (sumSq_nonneg A)

lemma normOf_eq_zero_iff (A : NMat) :
    normOf A = 0 ↔ ∀ i ∈ Finset.range A.r, ∀ j ∈ Finset.range A.c, A.f i j = 0 := by
  rw [normOf_eq_sqrt, Real.sqrt_eq_zero (sumSq_nonneg A)]
  unfold sumSq
  rw [Finset.sum_eq_zero_iff_of_nonneg
      (fun i _ => Finset.sum_nonneg fun j _ => Complex.normSq_nonneg _)]
  constructor
  · intro h i hi j hj
    have := (Finset.sum_eq_zero_iff_of_nonneg
      (fun j _ => Complex.normSq_nonneg (A.f i j))).1 (h i hi) j hj
    exact Complex.normSq_eq_zero.1 this
  · intro h i hi
    exact Finset.sum_eq_zero fun j hj => Complex.normSq_eq_zero.2 (h i hi j hj)

lemma normalize_of_normOf_eq_zero {A : NMat} (h : normOf A = 0) : normalize A = A := by
  unfold normalize; rw [if_pos h]

lemma normalize_of_normOf_ne_zero {A : NMat} (h : normOf A ≠ 0) :
    normalize A = ⟨A.r, A.c, fun i j => A.f i j / ((normOf A : ℝ) : ℂ)⟩ := by
  unfold normalize; rw [if_neg h]

lemma normalize_r (A : NMat) : (normalize A).r = A.r := by
  unfold normalize; split <;> rfl

lemma normalize_c (A : NMat) : (normalize A).c = A.c := by
  unfold normalize; split <;> rfl

lemma normOf_normalize {A : NMat} (h : normOf A ≠ 0) : normOf (normalize A) = 1 := by
  rw [normalize_of_normOf_ne_zero h, normOf_eq_sqrt]
  have hdiv : ∀ x : ℂ, Complex.normSq (x / ((normOf A : ℝ) : ℂ))
      = Complex.normSq x / normOf A ^ 2 := by
    intro x
    rw [Complex.normSq_div, Complex.normSq_ofReal, sq]
  have : sumSq ⟨A.r, A.c, fun i j => A.f i j / ((normOf A : ℝ) : ℂ)⟩
      = sumSq A / normOf A ^ 2 := by
    unfold sumSq
    simp only [hdiv, ← Finset.sum_div]
  rw [this, ← sq_normOf A, div_self (pow_ne_zero 2 h), Real.sqrt_one]

/-- Entries that are zero stay zero through `normalize`. -/
lemma normalize_entry_zero {A : NMat} {i j : ℕ} (h : A.f i j = 0) :
    (normalize A).f i j = 0 := by
  unfold normalize
  split
  · exact h
  · show A.f i j / _ = 0
    rw [h, zero_div]

/-- C10: `normalize` is idempotent, and its result is the zero vector or has
norm exactly 1.  Proved below as `claim_C10`. -/
theorem claim_C10 (v : NMat) :
    normalize (normalize v) = normalize v ∧
    ((∀ i ∈ Finset.range v.r, ∀ j ∈ Finset.range v.c, (normalize v).f i j = 0) ∨
      normOf (normalize v) = 1) := by
  by_cases h : normOf v = 0
  · refine ⟨?_, Or.inl ?_⟩
    · rw [normalize_of_normOf_eq_zero h, normalize_of_normOf_eq_zero h]
    · rw [normalize_of_normOf_eq_zero h]
      exact (normOf_eq_zero_iff v).1 h
  · have h1 : normOf (normalize v) = 1 := normOf_normalize h
    refine ⟨?_, Or.inr h1⟩
    rw [normalize_of_normOf_ne_zero (h1 ▸ one_ne_zero), h1]
    refine NMat.ext rfl rfl ?_
    funext i j
    show (normalize v).f i j / _ = (normalize v).f i j
    rw [Complex.ofReal_one, div_one]

/-! ### C8: the `kron` fold and associativity of the Kronecker product -/

/-- C8: `kron` of a single argument is that argument; `kron(A,B,C)` is the
left-to-right iterate; and `np.kron` is associative entrywise. -/
theorem claim_C8 :
    (∀ A : NMat, kron A [] = A) ∧
    (∀ A B C : NMat, kron A [B, C] = kron2 (kron2 A B) C) ∧
    (∀ A B C : NMat, kron2 (kron2 A B) C = kron2 A (kron2 B C)) := by
  refine ⟨fun A => rfl, fun A B C => rfl, fun A B C => ?_⟩
  have e1 : ∀ m b c : ℕ, m / c / b = m / (b * c) := fun m b c => by
    rw [Nat.div_div_eq_div_mul, Nat.mul_comm]
  have e2 : ∀ m b c : ℕ, m % (b * c) / c = m / c % b := fun m b c => by
    rw [Nat.mul_comm, Nat.mod_mul_right_div_self]
  have e3 : ∀ m b c : ℕ, m % (b * c) % c = m % c := fun m b c =>
    Nat.mod_mod_of_dvd m (dvd_mul_left c b)
  refine NMat.ext (mul_assoc _ _ _) (mul_assoc _ _ _) ?_
  funext i j
  show (A.f (i / C.r / B.r) (j / C.c / B.c) * B.f (i / C.r % B.r) (j / C.c % B.c))
        * C.f (i % C.r) (j % C.c)
      = A.f (i / (B.r * C.r)) (j / (B.c * C.c))
        * (B.f (i % (B.r * C.r) / C.r) (j % (B.c * C.c) / C.c)
          * C.f (i % (B.r * C.r) % C.r) (j % (B.c * C.c) % C.c))
  rw [e1 i B.r C.r, e1 j B.c C.c, e2 i B.r C.r, e2 j B.c C.c,
    e3 i B.r C.r, e3 j B.c C.c, mul_assoc]

/-! ### Measurement bookkeeping -/

lemma mask_00 : mask (0, 0) = [0, 1] := by decide

lemma mask_zero : mask 0 = [0, 1] := by decide

lemma mask_one : mask 1 = [6, 7] := by decide

lemma mask_01 : mask (0, 1) = [2, 3] := by decide

lemma mask_10 : mask (1, 0) = [4, 5] := by decide

lemma mask_11 : mask (1, 1) = [6, 7] := by decide

lemma mem_mask (ab : ℕ × ℕ) (i : ℕ) :
    i ∈ mask ab ↔ i < 8 ∧ (i >>> 2) &&& 1 = ab.1 ∧ (i >>> 1) &&& 1 = ab.2 := by
  simp [mask, List.mem_filter, List.mem_range, Bool.and_eq_true, beq_iff_eq, and_assoc]

/-- The four group probabilities add up over all eight basis indices. -/
lemma total_eq (st : NMat) :
    total st = probs st 0 + probs st 1 + probs st 2 + probs st 3
      + probs st 4 + probs st 5 + probs st 6 + probs st 7 := by
  simp [total, outcomes, outcome_prob, mask_00, mask_01, mask_10, mask_11,
    mask_zero, mask_one]
  ring

lemma outcome_prob_sum (st : NMat) :
    outcome_prob st (0, 0) + outcome_prob st (0, 1) + outcome_prob st (1, 0)
      + outcome_prob st (1, 1) = total st := by
  simp [total, outcomes]
  ring

/-- C4: the measurement engine groups the squared amplitudes by the bits of
qubits 0 and 1 (index bits 2 and 1), renormalizes the four group
probabilities to sum to 1, samples one of the four outcomes, and returns the
state with non-matching amplitudes zeroed and the survivors renormalized by
`normalize`. -/
theorem claim_C4 (st : NMat) (u : ℝ) (h : total st ≠ 0) :
    measure_two_qubits st u =
      some (outcomes.getD (choiceIdx st u) (0, 0),
        normalize (collapse st (outcomes.getD (choiceIdx st u) (0, 0)))) ∧
    (∀ a b : ℕ, a < 2 → b < 2 →
      outcome_prob st (a, b) =
        ∑ i ∈ (Finset.range 8).filter
            (fun i => (i >>> 2) &&& 1 = a ∧ (i >>> 1) &&& 1 = b),
          Complex.normSq (st.f i 0)) ∧
    pdist st 0 + pdist st 1 + pdist st 2 + pdist st 3 = 1 ∧
    choiceIdx st u < 4 ∧
    (∀ ab : ℕ × ℕ, ∀ i < 8,
      ¬((i >>> 2) &&& 1 = ab.1 ∧ (i >>> 1) &&& 1 = ab.2) → (collapse st ab).f i 0 = 0) ∧
    (∀ ab : ℕ × ℕ, ∀ i < 8,
      (i >>> 2) &&& 1 = ab.1 ∧ (i >>> 1) &&& 1 = ab.2 → (collapse st ab).f i 0 = st.f i 0) := by
  refine ⟨?_, ?_, ?_, ?_, ?_, ?_⟩
  · unfold measure_two_qubits
    rw [if_neg h]
  · intro a b ha hb
    interval_cases a <;> interval_cases b
    · rw [show (Finset.range 8).filter
          (fun i => (i >>> 2) &&& 1 = 0 ∧ (i >>> 1) &&& 1 = 0) = ({0, 1} : Finset ℕ)
          from by decide]
      simp [outcome_prob, mask_00, mask_zero, probs, flat, Finset.sum_pair]
    · rw [show (Finset.range 8).filter
          (fun i => (i >>> 2) &&& 1 = 0 ∧ (i >>> 1) &&& 1 = 1) = ({2, 3} : Finset ℕ)
          from by decide]
      simp [outcome_prob, mask_01, probs, flat, Finset.sum_pair]
    · rw [show (Finset.range 8).filter
          (fun i => (i >>> 2) &&& 1 = 1 ∧ (i >>> 1) &&& 1 = 0) = ({4, 5} : Finset ℕ)
          from by decide]
      simp [outcome_prob, mask_10, probs, flat, Finset.sum_pair]
    · rw [show (Finset.range 8).filter
          (fun i => (i >>> 2) &&& 1 = 1 ∧ (i >>> 1) &&& 1 = 1) = ({6, 7} : Finset ℕ)
          from by decide]
      simp [outcome_prob, mask_11, mask_one, probs, flat, Finset.sum_pair]
  · simp only [pdist, outcomes, List.getD_cons_zero, List.getD_cons_succ]
    rw [div_add_div_same, div_add_div_same, div_add_div_same, outcome_prob_sum, div_self h]
  · unfold choiceIdx
    split_ifs <;> norm_num
  · intro ab i hi hnot
    have hm : i ∉ mask ab := fun hm => hnot ((mem_mask ab i).1 hm).2
    simp [collapse, hm]
  · intro ab i hi hmatch
    have hm : i ∈ mask ab := (mem_mask ab i).2 ⟨hi, hmatch⟩
    simp [collapse, hm, flat]

/-- Witness for `claim_C4`: the basis state |000⟩ with the uniform draw 0. -/
theorem claim_C4_witness :
    total (NMat.mk 8 1 (fun i j => if i = 0 ∧ j = 0 then 1 else 0)) ≠ 0 ∧
    (measure_two_qubits (NMat.mk 8 1 (fun i j => if i = 0 ∧ j = 0 then 1 else 0)) 0 =
      some (outcomes.getD
          (choiceIdx (NMat.mk 8 1 (fun i j => if i = 0 ∧ j = 0 then 1 else 0)) 0) (0, 0),
        normalize (collapse (NMat.mk 8 1 (fun i j => if i = 0 ∧ j = 0 then 1 else 0))
          (outcomes.getD
            (choiceIdx (NMat.mk 8 1 (fun i j => if i = 0 ∧ j = 0 then 1 else 0)) 0) (0, 0)))) ∧
    (∀ a b : ℕ, a < 2 → b < 2 →
      outcome_prob (NMat.mk 8 1 (fun i j => if i = 0 ∧ j = 0 then 1 else 0)) (a, b) =
        ∑ i ∈ (Finset.range 8).filter
            (fun i => (i >>> 2) &&& 1 = a ∧ (i >>> 1) &&& 1 = b),
          Complex.normSq ((NMat.mk 8 1 (fun i j => if i = 0 ∧ j = 0 then 1 else 0)).f i 0)) ∧
    pdist (NMat.mk 8 1 (fun i j => if i = 0 ∧ j = 0 then 1 else 0)) 0
      + pdist (NMat.mk 8 1 (fun i j => if i = 0 ∧ j = 0 then 1 else 0)) 1
      + pdist (NMat.mk 8 1 (fun i j => if i = 0 ∧ j = 0 then 1 else 0)) 2
      + pdist (NMat.mk 8 1 (fun i j => if i = 0 ∧ j = 0 then 1 else 0)) 3 = 1 ∧
    choiceIdx (NMat.mk 8 1 (fun i j => if i = 0 ∧ j = 0 then 1 else 0)) 0 < 4 ∧
    (∀ ab : ℕ × ℕ, ∀ i < 8,
      ¬((i >>> 2) &&& 1 = ab.1 ∧ (i >>> 1) &&& 1 = ab.2) →
        (collapse (NMat.mk 8 1 (fun i j => if i = 0 ∧ j = 0 then 1 else 0)) ab).f i 0 = 0) ∧
    (∀ ab : ℕ × ℕ, ∀ i < 8,
      (i >>> 2) &&& 1 = ab.1 ∧ (i >>> 1) &&& 1 = ab.2 →
        (collapse (NMat.mk 8 1 (fun i j => if i = 0 ∧ j = 0 then 1 else 0)) ab).f i 0 =
          (NMat.mk 8 1 (fun i j => if i = 0 ∧ j = 0 then 1 else 0)).f i 0)) := by
  have h : total (NMat.mk 8 1 (fun i j => if i = 0 ∧ j = 0 then 1 else 0)) ≠ 0 := by
    rw [total_eq]
    norm_num [probs, flat]
  exact ⟨h, claim_C4 _ 0 h⟩

/-! ### The concrete `initialize(0.6, 0.8)` run

The definitions below are not part of the embedding: they are the computed
values of the session states along the canonical run, used to state the
evaluation lemmas that follow. -/

/-- The scalar 1/√2. -/
def c2 : ℂ := (((Real.sqrt 2)⁻¹ : ℝ) : ℂ)

/-- Computed value of ψ for `initialize(0.6, 0.8)`: the vector (0.6, 0.8). -/
def psiV : NMat :=
  ⟨2, 1, fun i j => if i = 0 ∧ j = 0 then ((0.6 : ℝ) : ℂ)
    else if i = 1 ∧ j = 0 then ((0.8 : ℝ) : ℂ) else 0⟩

/-- Computed value of the Bell pair: (1,0,0,1)/√2. -/
def bellV : NMat := ⟨4, 1, fun i j => if (i = 0 ∨ i = 3) ∧ j = 0 then c2 else 0⟩

/-- Computed value of the composite state after `initialize(0.6, 0.8)`. -/
def S0v : NMat :=
  ⟨8, 1, fun i j =>
    if (i = 0 ∨ i = 3) ∧ j = 0 then ((0.6 : ℝ) : ℂ) * c2
    else if (i = 4 ∨ i = 7) ∧ j = 0 then ((0.8 : ℝ) : ℂ) * c2 else 0⟩

/-- Computed value of the state after `U_cnot`. -/
def T0v : NMat :=
  ⟨8, 1, fun i j =>
    if (i = 0 ∨ i = 3) ∧ j = 0 then ((0.6 : ℝ) : ℂ) * c2
    else if (i = 5 ∨ i = 6) ∧ j = 0 then ((0.8 : ℝ) : ℂ) * c2 else 0⟩

/-- Computed value of the state after Alice's operations:
(0.3, 0.4, 0.4, 0.3, 0.3, -0.4, -0.4, 0.3). -/
def S1v : NMat :=
  ⟨8, 1, fun i j =>
    if j = 0 then
      (if i = 0 ∨ i = 3 ∨ i = 4 ∨ i = 7 then ((0.3 : ℝ) : ℂ)
       else if i = 1 ∨ i = 2 then ((0.4 : ℝ) : ℂ)
       else if i = 5 ∨ i = 6 then -((0.4 : ℝ) : ℂ) else 0)
    else 0⟩

lemma sqrt_two_mul_self : Real.sqrt 2 * Real.sqrt 2 = 2 :=
  Real.mul_self_sqrt (by norm_num)

lemma sqrt_two_ne_zero : Real.sqrt 2 ≠ 0 := by
  have : (0 : ℝ) < Real.sqrt 2 := Real.sqrt_pos.mpr (by norm_num)
  exact this.ne'

lemma c2_mul_c2 : c2 * c2 = ((1 / 2 : ℝ) : ℂ) := by
  unfold c2
  rw [← Complex.ofReal_mul, ← mul_inv, sqrt_two_mul_self]
  norm_num

lemma psi_eval :
    normalize (addM (smulM ((0.6 : ℝ) : ℂ) zero) (smulM ((0.8 : ℝ) : ℂ) one)) = psiV := by
  have hs : sumSq (addM (smulM ((0.6 : ℝ) : ℂ) zero) (smulM ((0.8 : ℝ) : ℂ) one)) = 1 := by
    unfold sumSq addM smulM zero one
    simp [Finset.sum_range_succ, Complex.normSq_ofReal]
    norm_num
  have hn : normOf (addM (smulM ((0.6 : ℝ) : ℂ) zero) (smulM ((0.8 : ℝ) : ℂ) one)) = 1 := by
    rw [normOf_eq_sqrt, hs, Real.sqrt_one]
  rw [normalize_of_normOf_ne_zero (hn ▸ one_ne_zero), hn]
  refine NMat.ext rfl rfl ?_
  funext i j
  show (((0.6 : ℝ) : ℂ) * zero.f i j + ((0.8 : ℝ) : ℂ) * one.f i j) / _ = psiV.f i j
  rw [Complex.ofReal_one, div_one]
  by_cases h1 : i = 0 ∧ j = 0
  · obtain ⟨hi, hj⟩ := h1
    subst hi; subst hj
    simp [zero, one, psiV]
  · by_cases h2 : i = 1 ∧ j = 0
    · obtain ⟨hi, hj⟩ := h2
      subst hi; subst hj
      simp [zero, one, psiV]
    · simp [zero, one, psiV, h1, h2]

lemma bell_eval :
    normalize (addM (kron2 zero zero) (kron2 one one)) = bellV := by
  have hs : sumSq (addM (kron2 zero zero) (kron2 one one)) = 2 := by
    unfold sumSq addM kron2 zero one
    simp [Finset.sum_range_succ]
    norm_num
  have hn : normOf (addM (kron2 zero zero) (kron2 one one)) = Real.sqrt 2 := by
    rw [normOf_eq_sqrt, hs]
  rw [normalize_of_normOf_ne_zero (hn ▸ sqrt_two_ne_zero), hn]
  refine NMat.ext rfl rfl ?_
  funext i j
  show (zero.f (i / 2) (j / 1) * zero.f (i % 2) (j % 1)
      + one.f (i / 2) (j / 1) * one.f (i % 2) (j % 1)) / _ = bellV.f i j
  by_cases hj : j = 0
  · subst hj
    by_cases hi : i < 4
    · interval_cases i <;>
        simp [zero, one, bellV, c2, Complex.ofReal_inv, one_div]
    · have h1 : i / 2 ≠ 0 := by omega
      have h2 : i / 2 ≠ 1 := by omega
      have h3 : ¬(i = 0 ∨ i = 3) := by omega
      simp [zero, one, bellV, h1, h2, h3]
  · have h1 : ¬(j / 1 = 0) := by omega
    have h2 : ¬((i = 0 ∨ i = 3) ∧ j = 0) := by tauto
    simp [zero, one, bellV, h1, h2, hj]

lemma S0_eval : kron2 psiV bellV = S0v := by
  refine NMat.ext rfl rfl ?_
  funext i j
  show psiV.f (i / 4) (j / 1) * bellV.f (i % 4) (j % 1) = S0v.f i j
  by_cases hj : j = 0
  · subst hj
    by_cases hi : i < 8
    · interval_cases i <;> simp [psiV, bellV, S0v]
    · have h1 : i / 4 ≠ 0 := by omega
      have h2 : i / 4 ≠ 1 := by omega
      have h3 : ¬(i = 0 ∨ i = 3) := by omega
      have h4 : ¬(i = 4 ∨ i = 7) := by omega
      simp [psiV, bellV, S0v, h1, h2, h3, h4]
  · have h1 : ¬(j / 1 = 0) := by omega
    simp [psiV, bellV, S0v, h1, hj]

/-- Evaluation of `initialize(0.6, 0.8)`: ψ and the composite state are
replaced, and `alice_result` is whatever it was before. -/
lemma initState_eval (s : Sess) :
    initState ((0.6 : ℝ) : ℂ) ((0.8 : ℝ) : ℂ) s
      = { s with psi := some psiV, state := some S0v } := by
  unfold initState
  simp only [psi_eval, bell_eval, S0_eval]

lemma T0_eval : mul U_cnot S0v = T0v := by
  refine NMat.ext rfl rfl ?_
  funext i j
  by_cases hj : j = 0
  · subst hj
    by_cases hi : i < 8
    · interval_cases i <;>
        simp [mul, U_cnot, kron, kron2, CNOT, I, S0v, T0v, Finset.sum_range_succ]
    · have e0 : ∀ k ∈ Finset.range 8, U_cnot.f i k * S0v.f k 0 = 0 := by
        intro k hk
        have h1 : i / 2 ≠ 0 := by omega
        have h2 : i / 2 ≠ 1 := by omega
        have h3 : i / 2 ≠ 2 := by omega
        have h4 : i / 2 ≠ 3 := by omega
        simp [U_cnot, kron, kron2, CNOT, I, h1, h2, h3, h4]
      have hL : (mul U_cnot S0v).f i 0 = 0 := Finset.sum_eq_zero e0
      rw [hL]
      simp [T0v, show ¬(i = 0 ∨ i = 3) from by omega, show ¬(i = 5 ∨ i = 6) from by omega]
  · have e0 : ∀ k ∈ Finset.range 8, U_cnot.f i k * S0v.f k j = 0 := by
      intro k hk
      simp [S0v, hj]
    have hL : (mul U_cnot S0v).f i j = 0 := Finset.sum_eq_zero e0
    rw [hL]
    simp [T0v, hj]

lemma S1_eval : mul U_h T0v = S1v := by
  refine NMat.ext rfl rfl ?_
  funext i j
  by_cases hj : j = 0
  · subst hj
    by_cases hi : i < 8
    · interval_cases i <;>
        simp [mul, U_h, kron, kron2, H, I, T0v, S1v, Finset.sum_range_succ, c2] <;>
        norm_cast <;> field_simp <;> nlinarith [sqrt_two_mul_self]
    · have e0 : ∀ k ∈ Finset.range 8, U_h.f i k * T0v.f k 0 = 0 := by
        intro k hk
        have h1 : ¬(i / 2 / 2 < 2) := by omega
        simp [U_h, kron, kron2, H, I, h1]
      have hL : (mul U_h T0v).f i 0 = 0 := Finset.sum_eq_zero e0
      rw [hL]
      have h2 : ¬(i = 0 ∨ i = 3 ∨ i = 4 ∨ i = 7) := by omega
      have h3 : ¬(i = 1 ∨ i = 2) := by omega
      have h4 : ¬(i = 5 ∨ i = 6) := by omega
      simp [S1v, h2, h3, h4]
  · have e0 : ∀ k ∈ Finset.range 8, U_h.f i k * T0v.f k j = 0 := by
      intro k hk
      simp [T0v, hj]
    have hL : (mul U_h T0v).f i j = 0 := Finset.sum_eq_zero e0
    rw [hL]
    simp [S1v, hj]

/-- Computed value of the collapsed, renormalized state after measuring
outcome (0,0): the vector (0.6, 0.8, 0, …, 0). -/
def M00v : NMat :=
  ⟨8, 1, fun i j => if i = 0 ∧ j = 0 then ((0.6 : ℝ) : ℂ)
    else if i = 1 ∧ j = 0 then ((0.8 : ℝ) : ℂ) else 0⟩

lemma total_S1v : total S1v = 1 := by
  rw [total_eq]
  simp [probs, flat, S1v, Complex.normSq_ofReal]
  norm_num

lemma op00_S1v : outcome_prob S1v (0, 0) = 1 / 4 := by
  simp [outcome_prob, mask_00, mask_zero, probs, flat, S1v, Complex.normSq_ofReal]
  norm_num

lemma choiceIdx_S1v : choiceIdx S1v 0 = 0 := by
  unfold choiceIdx
  rw [if_pos]
  show (0 : ℝ) < pdist S1v 0
  simp only [pdist, outcomes, List.getD_cons_zero, total_S1v, op00_S1v]
  norm_num

lemma collapse_S1v_eval : collapse S1v (0, 0) =
    ⟨8, 1, fun i j => if i = 0 ∧ j = 0 then ((0.3 : ℝ) : ℂ)
      else if i = 1 ∧ j = 0 then ((0.4 : ℝ) : ℂ) else 0⟩ := by
  refine NMat.ext rfl rfl ?_
  funext i j
  show (if j = 0 ∧ i ∈ mask (0, 0) then flat S1v i else 0) = _
  rw [mask_00]
  by_cases hj : j = 0
  · subst hj
    by_cases h0 : i = 0
    · subst h0; simp [flat, S1v]
    · by_cases h1 : i = 1
      · subst h1; simp [flat, S1v]
      · simp [h0, h1]
  · simp [hj]

lemma M00_eval : normalize (collapse S1v (0, 0)) = M00v := by
  rw [collapse_S1v_eval]
  have hs : sumSq ⟨8, 1, fun i j => if i = 0 ∧ j = 0 then ((0.3 : ℝ) : ℂ)
      else if i = 1 ∧ j = 0 then ((0.4 : ℝ) : ℂ) else 0⟩ = 1 / 4 := by
    unfold sumSq
    simp [Finset.sum_range_succ, Complex.normSq_ofReal]
    norm_num
  have hn : normOf ⟨8, 1, fun i j => if i = 0 ∧ j = 0 then ((0.3 : ℝ) : ℂ)
      else if i = 1 ∧ j = 0 then ((0.4 : ℝ) : ℂ) else 0⟩ = 1 / 2 := by
    rw [normOf_eq_sqrt, hs, show (1 / 4 : ℝ) = (1 / 2) ^ 2 from by norm_num,
      Real.sqrt_sq (by norm_num)]
  rw [normalize_of_normOf_ne_zero (by rw [hn]; norm_num), hn]
  refine NMat.ext rfl rfl ?_
  funext i j
  by_cases h0 : i = 0 ∧ j = 0
  · obtain ⟨hi, hj⟩ := h0
    subst hi; subst hj
    show ((0.3 : ℝ) : ℂ) / _ = M00v.f 0 0
    simp [M00v]
    norm_cast
    norm_num
  · by_cases h1 : i = 1 ∧ j = 0
    · obtain ⟨hi, hj⟩ := h1
      subst hi; subst hj
      show _ / _ = M00v.f 1 0
      simp [M00v]
      norm_cast
      norm_num
    · show _ / _ = M00v.f i j
      simp [M00v, h0, h1]

lemma measure_tq_eval : measure_two_qubits S1v 0 = some ((0, 0), M00v) := by
  unfold measure_two_qubits
  rw [if_neg (by rw [total_S1v]; norm_num)]
  simp only [choiceIdx_S1v, outcomes, List.getD_cons_zero, M00_eval]

/-- Running `alice_ops` from any session holding the initialized state. -/
lemma alice_run (ps : Option NMat) (ar : Option (ℕ × ℕ)) :
    alice_ops ⟨some S0v, ps, ar⟩ = (⟨some S1v, ps, ar⟩, Res.ok) := by
  show ((⟨some (mul U_h (mul U_cnot S0v)), ps, ar⟩ : Sess), Res.ok) = _
  rw [T0_eval, S1_eval]

/-- Running `measure` (with draw 0, which forces outcome (0,0)) from any
session holding the post-Alice state. -/
lemma measure_run (ps : Option NMat) (ar : Option (ℕ × ℕ)) :
    measure 0 ⟨some S1v, ps, ar⟩ = (⟨some M00v, ps, some (0, 0)⟩, Res.ok) := by
  show (match measure_two_qubits S1v 0 with
    | Option.none => ((⟨some S1v, ps, ar⟩ : Sess), Res.numErr)
    | Option.some (out, ns) => ((⟨some ns, ps, some out⟩ : Sess), Res.ok)) = _
  rw [measure_tq_eval]

lemma ucorrI_M00 : mul (kron I [I, I]) M00v = M00v := by
  refine NMat.ext rfl rfl ?_
  funext i j
  by_cases hj : j = 0
  · subst hj
    by_cases hi : i < 8
    · interval_cases i <;> simp [mul, kron, kron2, I, M00v, Finset.sum_range_succ]
    · have e0 : ∀ k ∈ Finset.range 8, (kron I [I, I]).f i k * M00v.f k 0 = 0 := by
        intro k hk
        have h1 : ¬(i / 2 / 2 < 2) := by omega
        simp [kron, kron2, I, h1]
      have hL : (mul (kron I [I, I]) M00v).f i 0 = 0 := Finset.sum_eq_zero e0
      rw [hL]
      simp [M00v, show ¬(i = 0) from by omega, show ¬(i = 1) from by omega]
  · have e0 : ∀ k ∈ Finset.range 8, (kron I [I, I]).f i k * M00v.f k j = 0 := by
      intro k hk
      simp [M00v, hj]
    have hL : (mul (kron I [I, I]) M00v).f i j = 0 := Finset.sum_eq_zero e0
    rw [hL]
    simp [M00v, hj]

lemma lastTwo_M00v : lastTwo M00v = NMat.mk 2 1 (fun i j => 0) := by
  refine NMat.ext rfl rfl ?_
  funext i j
  show (if i < 2 ∧ j = 0 then M00v.f (M00v.r - 2 + i) 0 else 0) = 0
  have h0 : M00v.f (M00v.r - 2 + i) 0 = 0 := by
    show M00v.f (8 - 2 + i) 0 = 0
    simp [M00v, show ¬(8 - 2 + i = 0) from by omega, show ¬(8 - 2 + i = 1) from by omega]
  rw [h0, ite_self]

lemma normalize_zero2 : normalize (NMat.mk 2 1 (fun i j => 0)) = NMat.mk 2 1 (fun i j => 0) := by
  apply normalize_of_normOf_eq_zero
  rw [normOf_eq_sqrt]
  unfold sumSq
  simp

/-- Running `bob_correction` from any session holding the post-measurement
state with measured bits (0,0): the correction is the identity, the state is
unchanged, and the reported "Bob's final qubit" is the ZERO vector, because
the surviving amplitudes sit in slots 0 and 1 while the code reads slots 6
and 7. -/
lemma bob_run (ps : Option NMat) :
    bob_correction ⟨some M00v, ps, some (0, 0)⟩
      = (⟨some M00v, ps, some (0, 0)⟩, Res.ok, some (NMat.mk 2 1 (fun i j => 0))) := by
  show ((⟨some (mul (kron I [I, I]) M00v), ps, some (0, 0)⟩ : Sess), Res.ok,
    some (normalize (lastTwo (mul (kron I [I, I]) M00v)))) = _
  rw [ucorrI_M00, lastTwo_M00v, normalize_zero2]

/-! ### The canonical run and the measure-from-Initialized run -/

/-- The session after clicking Initialize with α = 0.6, β = 0.8. -/
def run0 : Sess := initState ((0.6 : ℝ) : ℂ) ((0.8 : ℝ) : ℂ) sess0

/-- The session after Alice's operations. -/
def runA : Sess := (alice_ops run0).1

/-- The session after the measurement with draw 0 (outcome (0,0)). -/
def runM : Sess := (measure 0 runA).1

/-- The session after Bob's correction. -/
def runB : Sess := (bob_correction runM).1

lemma run0_eval : run0 = ⟨some S0v, some psiV, none⟩ := by
  unfold run0
  rw [initState_eval]
  rfl

lemma runA_eval : runA = ⟨some S1v, some psiV, none⟩ := by
  unfold runA
  rw [run0_eval, alice_run]

lemma runM_eval : runM = ⟨some M00v, some psiV, some (0, 0)⟩ := by
  unfold runM
  rw [runA_eval, measure_run]

lemma runB_eval : runB = ⟨some M00v, some psiV, some (0, 0)⟩ := by
  unfold runB
  rw [runM_eval, bob_run]

lemma normSq_c2 : Complex.normSq c2 = 1 / 2 := by
  rw [c2, Complex.normSq_ofReal, ← mul_inv, sqrt_two_mul_self]
  norm_num

lemma c2_ne_zero : c2 ≠ 0 :=
  Complex.ofReal_ne_zero.mpr (inv_ne_zero sqrt_two_ne_zero)

lemma total_S0v : total S0v = 1 := by
  rw [total_eq]
  simp [probs, flat, S0v, Complex.normSq_mul, Complex.normSq_ofReal, normSq_c2]
  norm_num

lemma op00_S0v : outcome_prob S0v (0, 0) = 0.18 := by
  simp [outcome_prob, mask_00, mask_zero, probs, flat, S0v, Complex.normSq_mul,
    Complex.normSq_ofReal, normSq_c2]
  norm_num

lemma choiceIdx_S0v : choiceIdx S0v 0 = 0 := by
  unfold choiceIdx
  rw [if_pos]
  show (0 : ℝ) < pdist S0v 0
  simp only [pdist, outcomes, List.getD_cons_zero, total_S0v, op00_S0v]
  norm_num

lemma measure_tq_S0v :
    measure_two_qubits S0v 0 = some ((0, 0), normalize (collapse S0v (0, 0))) := by
  unfold measure_two_qubits
  rw [if_neg (by rw [total_S0v]; norm_num)]
  simp only [choiceIdx_S0v, outcomes, List.getD_cons_zero]

/-- Measuring straight after Initialize (state exists, but Alice's
operations were never applied) passes the guard and collapses the state. -/
lemma measure_run0 (ps : Option NMat) (ar : Option (ℕ × ℕ)) :
    measure 0 ⟨some S0v, ps, ar⟩
      = (⟨some (normalize (collapse S0v (0, 0))), ps, some (0, 0)⟩, Res.ok) := by
  show (match measure_two_qubits S0v 0 with
    | Option.none => ((⟨some S0v, ps, ar⟩ : Sess), Res.numErr)
    | Option.some (out, ns) => ((⟨some ns, ps, some out⟩ : Sess), Res.ok)) = _
  rw [measure_tq_S0v]

/-! ### Claims C1, C2, C3, C9 -/

/-- C1 (code_bug evidence): in the run `initialize(0.6, 0.8) → aliceOps →
measure → bobCorrection` with the random draw 0, the measurement succeeds
with outcome (0,0) and Bob's correction succeeds, but the reported
`bobQubitState` is the all-zero vector, not the original ψ = (0.6, 0.8):
after collapsing onto outcome (0,0) the surviving amplitudes occupy slots
0 and 1, while the code reads slots 6 and 7.  No unit-phase multiple of ψ
is the zero vector, since any phase multiple has first entry z·0.6 ≠ 0. -/
theorem claim_C1_failing_run :
    (alice_ops run0).2 = Res.ok ∧
    (measure 0 runA).2 = Res.ok ∧
    runM.alice_result = some (0, 0) ∧
    (bob_correction runM).2.1 = Res.ok ∧
    (bob_correction runM).2.2 = some (NMat.mk 2 1 (fun i j => 0)) ∧
    runM.psi = some psiV ∧
    psiV.f 0 0 = ((0.6 : ℝ) : ℂ) ∧
    psiV.f 1 0 = ((0.8 : ℝ) : ℂ) ∧
    (∀ z : ℂ, (smulM z psiV).f 0 0 = z * ((0.6 : ℝ) : ℂ)) := by
  refine ⟨?_, ?_, ?_, ?_, ?_, ?_, ?_, ?_, ?_⟩
  · rw [run0_eval, alice_run]
  · rw [runA_eval, measure_run]
  · rw [runM_eval]
  · rw [runM_eval, bob_run]
  · rw [runM_eval, bob_run]
  · rw [runM_eval]
  · simp [psiV]
  · simp [psiV]
  · intro z
    simp [smulM, psiV]

/-- C2 counterexample: after the complete run and a second
`initialize(0.6, 0.8)`, calling `bobCorrection` before `measure` is NOT
rejected: `initialize` left the stale measurement result (0,0) in place, so
the guard passes and the correction runs. -/
theorem claim_C2_counterexample :
    (alice_ops run0).2 = Res.ok ∧
    (measure 0 runA).2 = Res.ok ∧
    (bob_correction runM).2.1 = Res.ok ∧
    (initState ((0.6 : ℝ) : ℂ) ((0.8 : ℝ) : ℂ) runB).state = some S0v ∧
    (initState ((0.6 : ℝ) : ℂ) ((0.8 : ℝ) : ℂ) runB).alice_result = some (0, 0) ∧
    (bob_correction (initState ((0.6 : ℝ) : ℂ) ((0.8 : ℝ) : ℂ) runB)).2.1 = Res.ok ∧
    (bob_correction (initState ((0.6 : ℝ) : ℂ) ((0.8 : ℝ) : ℂ) runB)).2.1 ≠ Res.phaseErr := by
  refine ⟨?_, ?_, ?_, ?_, ?_, ?_, ?_⟩
  · rw [run0_eval, alice_run]
  · rw [runA_eval, measure_run]
  · rw [runM_eval, bob_run]
  · rw [runB_eval, initState_eval]
  · rw [runB_eval, initState_eval]
  · rw [runB_eval, initState_eval]
    rfl
  · rw [runB_eval, initState_eval]
    rw [show (bob_correction (⟨some S0v, some psiV, some (0, 0)⟩ : Sess)).2.1 = Res.ok
      from rfl]
    simp

/-- C2 amended: `initialize` replaces ψ and the composite state but leaves
the measurement result untouched; consequently a `bobCorrection` issued
after re-initialization and before any new measurement passes the guard and
proceeds on the stale bits (it is not rejected with a phase-order notice). -/
theorem claim_C2_amended :
    (∀ (α β : ℂ) (s : Sess), (initState α β s).alice_result = s.alice_result) ∧
    (∀ (α β : ℂ) (s : Sess) (r : ℕ × ℕ), s.alice_result = some r →
      (bob_correction (initState α β s)).2.1 = Res.ok ∧
      (bob_correction (initState α β s)).1.alice_result = some r) := by
  constructor
  · intro α β s
    rfl
  · intro α β s r h
    obtain ⟨st0, ps0, ar0⟩ := s
    rw [show (⟨st0, ps0, ar0⟩ : Sess).alice_result = ar0 from rfl] at h
    subst h
    exact ⟨rfl, rfl⟩

/-- Witness for `claim_C2_amended`. -/
theorem claim_C2_amended_witness :
    runM.alice_result = some (0, 0) ∧
    (bob_correction (initState ((0.6 : ℝ) : ℂ) ((0.8 : ℝ) : ℂ) runM)).2.1 = Res.ok ∧
    (bob_correction (initState ((0.6 : ℝ) : ℂ) ((0.8 : ℝ) : ℂ) runM)).1.alice_result
      = some (0, 0) := by
  have h : runM.alice_result = some (0, 0) := by rw [runM_eval]
  exact ⟨h, (claim_C2_amended.2 _ _ runM (0, 0) h).1, (claim_C2_amended.2 _ _ runM (0, 0) h).2⟩

/-- C3 amended: every guard-rejected phase call leaves the session exactly
as it was (this includes the numerical failure inside `measure`); but the
guards test only that a state (and, for `bobCorrection`, a measurement
result) exists — they do not track the true prerequisite phase. -/
theorem claim_C3_amended :
    (∀ s : Sess, s.state = none → alice_ops s = (s, Res.phaseErr)) ∧
    (∀ (u : ℝ) (s : Sess), s.state = none → measure u s = (s, Res.phaseErr)) ∧
    (∀ (u : ℝ) (s : Sess) (st : NMat), s.state = some st → total st = 0 →
      measure u s = (s, Res.numErr)) ∧
    (∀ s : Sess, s.state = none ∨ s.alice_result = none →
      bob_correction s = (s, Res.phaseErr, none)) := by
  refine ⟨?_, ?_, ?_, ?_⟩
  · intro s h
    unfold alice_ops
    rw [h]
  · intro u s h
    unfold measure
    rw [h]
  · intro u s st h h0
    unfold measure
    rw [h]
    show (match measure_two_qubits st u with
      | Option.none => (s, Res.numErr)
      | Option.some (out, ns) =>
        ({ s with state := some ns, alice_result := some out }, Res.ok)) = _
    unfold measure_two_qubits
    rw [if_pos h0]
  · intro s h
    obtain ⟨st0, ps0, ar0⟩ := s
    cases st0 <;> cases ar0 <;> first | rfl | (rcases h with h | h <;> simp_all)

/-- C3 counterexample: `measure` invoked from the Initialized phase (before
`aliceOps`) is not rejected — it runs and collapses the stored state. -/
theorem claim_C3_counterexample :
    (measure 0 run0).2 = Res.ok ∧ (measure 0 run0).1.state ≠ run0.state := by
  constructor
  · rw [run0_eval, measure_run0]
  · rw [run0_eval, measure_run0]
    show some (normalize (collapse S0v (0, 0))) ≠ some S0v
    intro heq
    have h2 : normalize (collapse S0v (0, 0)) = S0v := Option.some.inj heq
    have h70 : (normalize (collapse S0v (0, 0))).f 7 0 = 0 := by
      apply normalize_entry_zero
      simp [collapse, mask_00, mask_zero]
    have hS : S0v.f 7 0 = ((0.8 : ℝ) : ℂ) * c2 := by simp [S0v]
    rw [h2, hS] at h70
    exact (mul_ne_zero (by norm_num) c2_ne_zero) h70

/-- Witness for `claim_C3_amended`: the three guard rejections at the fresh
session, and the untouched-state numerical failure at the zero state. -/
theorem claim_C3_amended_witness :
    sess0.state = none ∧
    alice_ops sess0 = (sess0, Res.phaseErr) ∧
    measure 0 sess0 = (sess0, Res.phaseErr) ∧
    bob_correction sess0 = (sess0, Res.phaseErr, none) := by
  refine ⟨rfl, claim_C3_amended.1 sess0 rfl, claim_C3_amended.2.1 0 sess0 rfl,
    claim_C3_amended.2.2.2 sess0 (Or.inl rfl)⟩

/-- C9: a second `aliceOps` (or `bobCorrection`) passes the guard and
multiplies the state again; concretely, running `aliceOps` twice from
`initialize(0.6, 0.8)` leaves a different composite state than running it
once, so the phase operations are not idempotent. -/
theorem claim_C9_reentry :
    (∀ (s : Sess) (st : NMat), s.state = some st →
      alice_ops s = ({ s with state := some (mul U_h (mul U_cnot st)) }, Res.ok)) ∧
    (∀ (s : Sess) (st : NMat) (r : ℕ × ℕ), s.state = some st → s.alice_result = some r →
      (bob_correction s).2.1 = Res.ok) ∧
    (alice_ops runA).1.state ≠ runA.state := by
  refine ⟨?_, ?_, ?_⟩
  · intro s st h
    obtain ⟨st0, ps0, ar0⟩ := s
    rw [show (⟨st0, ps0, ar0⟩ : Sess).state = st0 from rfl] at h
    subst h
    rfl
  · intro s st r h1 h2
    obtain ⟨st0, ps0, ar0⟩ := s
    rw [show (⟨st0, ps0, ar0⟩ : Sess).state = st0 from rfl] at h1
    rw [show (⟨st0, ps0, ar0⟩ : Sess).alice_result = ar0 from rfl] at h2
    subst h1
    subst h2
    rfl
  · rw [runA_eval]
    show some (mul U_h (mul U_cnot S1v)) ≠ some S1v
    intro heq
    have h2 : mul U_h (mul U_cnot S1v) = S1v := Option.some.inj heq
    have key : (mul U_h (mul U_cnot S1v)).f 0 0 = ((-0.1 : ℝ) : ℂ) * c2 := by
      simp [mul, U_h, U_cnot, kron, kron2, H, I, CNOT, S1v, Finset.sum_range_succ, c2]
      norm_cast
      field_simp
      nlinarith [sqrt_two_mul_self]
    have hS : S1v.f 0 0 = ((0.3 : ℝ) : ℂ) := by simp [S1v]
    rw [h2, hS] at key
    have : ((0.3 : ℝ) : ℂ) ≠ ((-0.1 : ℝ) : ℂ) * c2 := by
      rw [c2, ← Complex.ofReal_mul]
      intro hx
      have hr : (0.3 : ℝ) = -0.1 * (Real.sqrt 2)⁻¹ := by exact_mod_cast hx
      have hpos : 0 < (Real.sqrt 2)⁻¹ :=
        inv_pos.mpr (Real.sqrt_pos.mpr (by norm_num))
      nlinarith
    exact this key

/-- Witness for `claim_C9_reentry`. -/
theorem claim_C9_reentry_witness :
    runA.state = some S1v ∧
    alice_ops runA = ({ runA with state := some (mul U_h (mul U_cnot S1v)) }, Res.ok) ∧
    runM.state = some M00v ∧
    runM.alice_result = some (0, 0) ∧
    (bob_correction runM).2.1 = Res.ok := by
  have hA : runA.state = some S1v := by rw [runA_eval]
  have hM1 : runM.state = some M00v := by rw [runM_eval]
  have hM2 : runM.alice_result = some (0, 0) := by rw [runM_eval]
  exact ⟨hA, claim_C9_reentry.1 runA S1v hA, hM1, hM2,
    claim_C9_reentry.2.1 runM M00v (0, 0) hM1 hM2⟩

/-! ### Claim C6: Bob's correction table and its action on the third qubit -/

/-- `kron(I, I, Cm)` acts block-diagonally: on the basis index
`4·q0 + 2·q1 + c` it combines only the two amplitudes of the same
(q0, q1)-block, through the 2×2 matrix `Cm` — qubits 0 and 1 are untouched. -/
lemma corr_block (Cm : NMat) (h2r : Cm.r = 2) (h2c : Cm.c = 2) (v : NMat)
    (q0 q1 c : ℕ) (hq0 : q0 < 2) (hq1 : q1 < 2) (hc : c < 2) :
    (mul (kron I [I, Cm]) v).f (4 * q0 + 2 * q1 + c) 0
      = Cm.f c 0 * v.f (4 * q0 + 2 * q1) 0 + Cm.f c 1 * v.f (4 * q0 + 2 * q1 + 1) 0 := by
  have hc8 : (kron I [I, Cm]).c = 8 := by
    show 2 * 2 * Cm.c = 8
    rw [h2c]
  have expand : ∀ i : ℕ, (mul (kron I [I, Cm]) v).f i 0
      = ∑ k ∈ Finset.range 8, (kron I [I, Cm]).f i k * v.f k 0 := by
    intro i
    show (∑ k ∈ Finset.range ((kron I [I, Cm]).c), (kron I [I, Cm]).f i k * v.f k 0) = _
    rw [hc8]
  interval_cases q0 <;> interval_cases q1 <;> interval_cases c <;>
    (rw [expand]
     simp [kron, kron2, I, h2r, h2c, Finset.sum_range_succ]
     try ring)

/-- C6: `bob_correction` selects I, X, Z, Z·X according to the measured
bits, applies `kron(I, I, correction)` to the composite state, and this
touches only Bob's qubit: each (q0, q1)-block is mapped through the 2×2
correction matrix alone. -/
theorem claim_C6_correction (s : Sess) (st : NMat) (a b : ℕ)
    (h1 : s.state = some st) (h2 : s.alice_result = some (a, b))
    (ha : a < 2) (hb : b < 2) :
    ∃ Cm : NMat,
      ((a, b) = ((0 : ℕ), (0 : ℕ)) → Cm = I) ∧
      ((a, b) = ((0 : ℕ), (1 : ℕ)) → Cm = X) ∧
      ((a, b) = ((1 : ℕ), (0 : ℕ)) → Cm = Z) ∧
      ((a, b) = ((1 : ℕ), (1 : ℕ)) → Cm = mul Z X) ∧
      bob_correction s = ({ s with state := some (mul (kron I [I, Cm]) st) }, Res.ok,
        some (normalize (lastTwo (mul (kron I [I, Cm]) st)))) ∧
      (∀ q0 q1 c : ℕ, q0 < 2 → q1 < 2 → c < 2 →
        (mul (kron I [I, Cm]) st).f (4 * q0 + 2 * q1 + c) 0
          = Cm.f c 0 * st.f (4 * q0 + 2 * q1) 0
            + Cm.f c 1 * st.f (4 * q0 + 2 * q1 + 1) 0) := by
  obtain ⟨st0, ps0, ar0⟩ := s
  rw [show (⟨st0, ps0, ar0⟩ : Sess).state = st0 from rfl] at h1
  rw [show (⟨st0, ps0, ar0⟩ : Sess).alice_result = ar0 from rfl] at h2
  subst h1
  subst h2
  interval_cases a <;> interval_cases b
  · exact ⟨I, fun _ => rfl, fun h => absurd h (by decide), fun h => absurd h (by decide),
      fun h => absurd h (by decide), rfl, corr_block I rfl rfl st⟩
  · exact ⟨X, fun h => absurd h (by decide), fun _ => rfl, fun h => absurd h (by decide),
      fun h => absurd h (by decide), rfl, corr_block X rfl rfl st⟩
  · exact ⟨Z, fun h => absurd h (by decide), fun h => absurd h (by decide), fun _ => rfl,
      fun h => absurd h (by decide), rfl, corr_block Z rfl rfl st⟩
  · exact ⟨mul Z X, fun h => absurd h (by decide), fun h => absurd h (by decide),
      fun h => absurd h (by decide), fun _ => rfl, rfl, corr_block (mul Z X) rfl rfl st⟩

/-- Witness for `claim_C6_correction`: the post-measurement session of the
canonical run, with measured bits (0,0). -/
theorem claim_C6_correction_witness :
    runM.state = some M00v ∧ runM.alice_result = some (0, 0) ∧
    (∃ Cm : NMat,
      (((0 : ℕ), (0 : ℕ)) = ((0 : ℕ), (0 : ℕ)) → Cm = I) ∧
      (((0 : ℕ), (0 : ℕ)) = ((0 : ℕ), (1 : ℕ)) → Cm = X) ∧
      (((0 : ℕ), (0 : ℕ)) = ((1 : ℕ), (0 : ℕ)) → Cm = Z) ∧
      (((0 : ℕ), (0 : ℕ)) = ((1 : ℕ), (1 : ℕ)) → Cm = mul Z X) ∧
      bob_correction runM = ({ runM with state := some (mul (kron I [I, Cm]) M00v) },
        Res.ok, some (normalize (lastTwo (mul (kron I [I, Cm]) M00v)))) ∧
      (∀ q0 q1 c : ℕ, q0 < 2 → q1 < 2 → c < 2 →
        (mul (kron I [I, Cm]) M00v).f (4 * q0 + 2 * q1 + c) 0
          = Cm.f c 0 * M00v.f (4 * q0 + 2 * q1) 0
            + Cm.f c 1 * M00v.f (4 * q0 + 2 * q1 + 1) 0)) := by
  have hM1 : runM.state = some M00v := by rw [runM_eval]
  have hM2 : runM.alice_result = some (0, 0) := by rw [runM_eval]
  exact ⟨hM1, hM2,
    claim_C6_correction runM M00v 0 0 hM1 hM2 (by norm_num) (by norm_num)⟩

/-! ### Claim C7: when the measurement fails -/

/-- C7 amended: `measure` reports the phase-order notice exactly when no
state exists; if a state exists it succeeds whenever the summed group
probability is nonzero, and fails with the numerical sampling error (not
the phase-order notice) when the stored state is the all-zero vector. -/
theorem claim_C7_amended :
    (∀ (u : ℝ) (s : Sess), (measure u s).2 = Res.phaseErr ↔ s.state = none) ∧
    (∀ (u : ℝ) (s : Sess) (st : NMat), s.state = some st → total st ≠ 0 →
      (measure u s).2 = Res.ok) ∧
    (∀ (u : ℝ) (s : Sess) (st : NMat), s.state = some st → total st = 0 →
      (measure u s).2 = Res.numErr) := by
  refine ⟨?_, ?_, ?_⟩
  · intro u s
    obtain ⟨st0, ps0, ar0⟩ := s
    cases st0 with
    | none => exact iff_of_true rfl rfl
    | some st =>
      have hmt : measure_two_qubits st u = none ∨
          ∃ p, measure_two_qubits st u = some p := by
        cases measure_two_qubits st u with
        | none => exact Or.inl rfl
        | some p => exact Or.inr ⟨p, rfl⟩
      rcases hmt with hmt | ⟨⟨out, ns⟩, hmt⟩
      · rw [show (measure u (⟨some st, ps0, ar0⟩ : Sess)).2
            = (match measure_two_qubits st u with
              | Option.none => ((⟨some st, ps0, ar0⟩ : Sess), Res.numErr)
              | Option.some (out, ns) =>
                ((⟨some ns, ps0, some out⟩ : Sess), Res.ok)).2 from rfl, hmt]
        simp
      · rw [show (measure u (⟨some st, ps0, ar0⟩ : Sess)).2
            = (match measure_two_qubits st u with
              | Option.none => ((⟨some st, ps0, ar0⟩ : Sess), Res.numErr)
              | Option.some (out, ns) =>
                ((⟨some ns, ps0, some out⟩ : Sess), Res.ok)).2 from rfl, hmt]
        simp
  · intro u s st h hne
    obtain ⟨st0, ps0, ar0⟩ := s
    rw [show (⟨st0, ps0, ar0⟩ : Sess).state = st0 from rfl] at h
    subst h
    have hmt : measure_two_qubits st u
        = some (outcomes.getD (choiceIdx st u) (0, 0),
            normalize (collapse st (outcomes.getD (choiceIdx st u) (0, 0)))) := by
      unfold measure_two_qubits
      rw [if_neg hne]
    rw [show (measure u (⟨some st, ps0, ar0⟩ : Sess)).2
        = (match measure_two_qubits st u with
          | Option.none => ((⟨some st, ps0, ar0⟩ : Sess), Res.numErr)
          | Option.some (out, ns) =>
            ((⟨some ns, ps0, some out⟩ : Sess), Res.ok)).2 from rfl, hmt]
  · intro u s st h h0
    obtain ⟨st0, ps0, ar0⟩ := s
    rw [show (⟨st0, ps0, ar0⟩ : Sess).state = st0 from rfl] at h
    subst h
    have hmt : measure_two_qubits st u = none := by
      unfold measure_two_qubits
      rw [if_pos h0]
    rw [show (measure u (⟨some st, ps0, ar0⟩ : Sess)).2
        = (match measure_two_qubits st u with
          | Option.none => ((⟨some st, ps0, ar0⟩ : Sess), Res.numErr)
          | Option.some (out, ns) =>
            ((⟨some ns, ps0, some out⟩ : Sess), Res.ok)).2 from rfl, hmt]

/-- C7 counterexample: `initialize("0", "0")` parses, stores the all-zero
composite state (a state "exists"), and the subsequent `measure` fails with
the numerical sampling error — an error condition beyond the
uninitialized-state one. -/
theorem claim_C7_counterexample :
    (initState 0 0 sess0).state ≠ none ∧
    (measure 0 (initState 0 0 sess0)).2 = Res.numErr := by
  have hP : ∀ i j : ℕ, (normalize (addM (smulM 0 zero) (smulM 0 one))).f i j = 0 := by
    intro i j
    apply normalize_entry_zero
    simp [addM, smulM]
  have htot : total (kron2 (normalize (addM (smulM 0 zero) (smulM 0 one)))
      (normalize (addM (kron2 zero zero) (kron2 one one)))) = 0 := by
    rw [total_eq]
    simp [probs, flat, kron2, hP]
  constructor
  · show some _ ≠ none
    simp
  · have hmt : measure_two_qubits (kron2 (normalize (addM (smulM 0 zero) (smulM 0 one)))
        (normalize (addM (kron2 zero zero) (kron2 one one)))) 0 = none := by
      unfold measure_two_qubits
      rw [if_pos htot]
    rw [show (measure 0 (initState 0 0 sess0)).2
        = (match measure_two_qubits (kron2 (normalize (addM (smulM 0 zero) (smulM 0 one)))
            (normalize (addM (kron2 zero zero) (kron2 one one)))) 0 with
          | Option.none => (initState 0 0 sess0, Res.numErr)
          | Option.some (out, ns) =>
            ({ initState 0 0 sess0 with state := some ns, alice_result := some out },
              Res.ok)).2 from rfl, hmt]

/-- Witness for `claim_C7_amended`. -/
theorem claim_C7_amended_witness :
    ((measure 0 sess0).2 = Res.phaseErr ↔ sess0.state = none) ∧
    (⟨some S1v, none, none⟩ : Sess).state = some S1v ∧
    total S1v ≠ 0 ∧
    (measure 0 (⟨some S1v, none, none⟩ : Sess)).2 = Res.ok ∧
    total (NMat.mk 8 1 (fun i j => 0)) = 0 ∧
    (measure 0 (⟨some (NMat.mk 8 1 (fun i j => 0)), none, none⟩ : Sess)).2 = Res.numErr := by
  have h1 : total S1v ≠ 0 := by
    rw [total_S1v]
    norm_num
  have h0 : total (NMat.mk 8 1 (fun i j => 0)) = 0 := by
    rw [total_eq]
    simp [probs, flat]
  exact ⟨claim_C7_amended.1 0 sess0, rfl, h1,
    claim_C7_amended.2.1 0 _ S1v rfl h1, h0,
    claim_C7_amended.2.2 0 _ _ rfl h0⟩

/-! ### Claim C5: unit-norm invariants -/

lemma sumSq_init_psi (α β : ℂ) :
    sumSq (addM (smulM α zero) (smulM β one)) = Complex.normSq α + Complex.normSq β := by
  unfold sumSq addM smulM zero one
  simp [Finset.sum_range_succ]

lemma normOf_init_psi_ne (α β : ℂ) (hab : ¬(α = 0 ∧ β = 0)) :
    normOf (addM (smulM α zero) (smulM β one)) ≠ 0 := by
  rw [normOf_eq_sqrt, sumSq_init_psi]
  have hpos : 0 < Complex.normSq α + Complex.normSq β := by
    rcases not_and_or.mp hab with h | h
    · exact add_pos_of_pos_of_nonneg (Complex.normSq_pos.mpr h) (Complex.normSq_nonneg β)
    · exact add_pos_of_nonneg_of_pos (Complex.normSq_nonneg α) (Complex.normSq_pos.mpr h)
  exact (Real.sqrt_pos.mpr hpos).ne'

/-- ψ has norm 1 after `initialize` with any (α, β) ≠ (0, 0). -/
lemma psi_norm_one (α β : ℂ) (hab : ¬(α = 0 ∧ β = 0)) :
    normOf (normalize (addM (smulM α zero) (smulM β one))) = 1 :=
  normOf_normalize (normOf_init_psi_ne α β hab)

lemma normOf_bellV : normOf bellV = 1 := by
  have hs : sumSq bellV = 1 := by
    unfold sumSq bellV
    simp [Finset.sum_range_succ, normSq_c2]
    norm_num
  rw [normOf_eq_sqrt, hs, Real.sqrt_one]

/-- Norm multiplicativity of the Kronecker product of a 2-vector with a
4-vector. -/
lemma normOf_kron2_24 (A B : NMat) (hA1 : A.r = 2) (hA2 : A.c = 1)
    (hB1 : B.r = 4) (hB2 : B.c = 1) :
    normOf (kron2 A B) = normOf A * normOf B := by
  have hs : sumSq (kron2 A B) = sumSq A * sumSq B := by
    unfold sumSq kron2
    rw [hA1, hB1, hA2, hB2]
    simp [Finset.sum_range_succ, Complex.normSq_mul]
    ring
  rw [normOf_eq_sqrt, normOf_eq_sqrt, normOf_eq_sqrt, hs,
    Real.sqrt_mul (sumSq_nonneg A)]

/-- The composite state has norm 1 after `initialize` with (α, β) ≠ (0, 0). -/
lemma initState_state_norm (α β : ℂ) (hab : ¬(α = 0 ∧ β = 0)) :
    normOf (kron2 (normalize (addM (smulM α zero) (smulM β one)))
      (normalize (addM (kron2 zero zero) (kron2 one one)))) = 1 := by
  rw [bell_eval,
    normOf_kron2_24 _ _ ((normalize_r _).trans rfl) ((normalize_c _).trans rfl) rfl rfl,
    psi_norm_one α β hab, normOf_bellV, one_mul]

/-- `U_cnot` (a permutation matrix) preserves the norm of 8-vectors. -/
lemma normOf_mul_U_cnot (v : NMat) (h1 : v.r = 8) (h2 : v.c = 1) :
    normOf (mul U_cnot v) = normOf v := by
  have hs : sumSq (mul U_cnot v) = sumSq v := by
    unfold sumSq
    rw [show (mul U_cnot v).r = 8 from rfl, show (mul U_cnot v).c = v.c from rfl, h1, h2]
    simp [mul, U_cnot, kron, kron2, CNOT, I, Finset.sum_range_succ]
    ring
  rw [normOf_eq_sqrt, normOf_eq_sqrt, hs]

lemma normSq_hadamard_pair (x y : ℂ) :
    Complex.normSq ((((Real.sqrt 2)⁻¹ : ℝ) : ℂ) * x + (((Real.sqrt 2)⁻¹ : ℝ) : ℂ) * y)
      + Complex.normSq ((((Real.sqrt 2)⁻¹ : ℝ) : ℂ) * x - (((Real.sqrt 2)⁻¹ : ℝ) : ℂ) * y)
      = Complex.normSq x + Complex.normSq y := by
  have h : ((Real.sqrt 2)⁻¹ : ℝ) * ((Real.sqrt 2)⁻¹ : ℝ) = 1 / 2 := by
    rw [← mul_inv, sqrt_two_mul_self]
    norm_num
  simp only [Complex.normSq_apply, Complex.add_re, Complex.add_im, Complex.sub_re,
    Complex.sub_im, Complex.mul_re, Complex.mul_im, Complex.ofReal_re, Complex.ofReal_im]
  linear_combination (2 * (x.re ^ 2 + x.im ^ 2 + y.re ^ 2 + y.im ^ 2)) * h

lemma U_h_entry_lo (v : NMat) (i : ℕ) (hi : i < 4) :
    (mul U_h v).f i 0 = (((Real.sqrt 2)⁻¹ : ℝ) : ℂ) * v.f i 0
      + (((Real.sqrt 2)⁻¹ : ℝ) : ℂ) * v.f (i + 4) 0 := by
  interval_cases i <;>
    (simp [mul, U_h, kron, kron2, H, I, Finset.sum_range_succ]
     try ring)

lemma U_h_entry_hi (v : NMat) (i : ℕ) (hi : i < 4) :
    (mul U_h v).f (i + 4) 0 = (((Real.sqrt 2)⁻¹ : ℝ) : ℂ) * v.f i 0
      - (((Real.sqrt 2)⁻¹ : ℝ) : ℂ) * v.f (i + 4) 0 := by
  interval_cases i <;>
    (simp [mul, U_h, kron, kron2, H, I, Finset.sum_range_succ]
     try ring)

/-- `U_h` (Hadamard on qubit 0) preserves the norm of 8-vectors. -/
lemma normOf_mul_U_h (v : NMat) (h1 : v.r = 8) (h2 : v.c = 1) :
    normOf (mul U_h v) = normOf v := by
  have hs : sumSq (mul U_h v) = sumSq v := by
    unfold sumSq
    rw [show (mul U_h v).r = 8 from rfl, show (mul U_h v).c = v.c from rfl, h1, h2]
    simp only [Finset.sum_range_succ, Finset.sum_range_zero, zero_add]
    rw [U_h_entry_lo v 0 (by norm_num), U_h_entry_lo v 1 (by norm_num),
      U_h_entry_lo v 2 (by norm_num), U_h_entry_lo v 3 (by norm_num),
      show (4 : ℕ) = 0 + 4 from rfl, U_h_entry_hi v 0 (by norm_num),
      show (5 : ℕ) = 1 + 4 from rfl, U_h_entry_hi v 1 (by norm_num),
      show (6 : ℕ) = 2 + 4 from rfl, U_h_entry_hi v 2 (by norm_num),
      show (7 : ℕ) = 3 + 4 from rfl, U_h_entry_hi v 3 (by norm_num)]
    linear_combination normSq_hadamard_pair (v.f 0 0) (v.f (0 + 4) 0)
      + normSq_hadamard_pair (v.f 1 0) (v.f (1 + 4) 0)
      + normSq_hadamard_pair (v.f 2 0) (v.f (2 + 4) 0)
      + normSq_hadamard_pair (v.f 3 0) (v.f (3 + 4) 0)
  rw [normOf_eq_sqrt, normOf_eq_sqrt, hs]

/-- Each of the four correction operators, embedded as `kron(I, I, ·)`,
preserves the norm of 8-vectors. -/
lemma normOf_corr (C : NMat) (hC : C = I ∨ C = X ∨ C = Z ∨ C = mul Z X)
    (v : NMat) (h1 : v.r = 8) (h2 : v.c = 1) :
    normOf (mul (kron I [I, C]) v) = normOf v := by
  have hs : sumSq (mul (kron I [I, C]) v) = sumSq v := by
    rcases hC with hC | hC | hC | hC <;> subst hC <;>
      (unfold sumSq
       simp [mul, kron, kron2, I, X, Z, h1, h2, Finset.sum_range_succ]
       try ring)
  rw [normOf_eq_sqrt, normOf_eq_sqrt, hs]

lemma outcome_prob_nonneg (st : NMat) (ab : ℕ × ℕ) : 0 ≤ outcome_prob st ab := by
  apply List.sum_nonneg
  intro x hx
  simp only [List.mem_map] at hx
  obtain ⟨i, _, rfl⟩ := hx
  exact Complex.normSq_nonneg _

lemma total_nonneg (st : NMat) : 0 ≤ total st := by
  rw [← outcome_prob_sum]
  exact add_nonneg (add_nonneg (add_nonneg (outcome_prob_nonneg st (0, 0))
    (outcome_prob_nonneg st (0, 1))) (outcome_prob_nonneg st (1, 0)))
    (outcome_prob_nonneg st (1, 1))

lemma total_pos (st : NMat) (h : total st ≠ 0) : 0 < total st :=
  lt_of_le_of_ne (total_nonneg st) (Ne.symm h)

lemma pdist_sum (st : NMat) (h : total st ≠ 0) :
    pdist st 0 + pdist st 1 + pdist st 2 + pdist st 3 = 1 := by
  simp only [pdist, outcomes, List.getD_cons_zero, List.getD_cons_succ]
  rw [div_add_div_same, div_add_div_same, div_add_div_same, outcome_prob_sum, div_self h]

/-- With a draw u ∈ [0, 1), the sampled group always has positive
(renormalized) probability: the inverse-CDF never lands on a zero-probability
group. -/
lemma chosen_pos (st : NMat) (u : ℝ) (hne : total st ≠ 0) (h0 : 0 ≤ u) (h1 : u < 1) :
    0 < pdist st (choiceIdx st u) := by
  have hsum := pdist_sum st hne
  unfold choiceIdx
  split_ifs with hi1 hi2 hi3
  · exact lt_of_le_of_lt h0 hi1
  · push_neg at hi1
    linarith
  · push_neg at hi1 hi2
    linarith
  · push_neg at hi1 hi2 hi3
    linarith

lemma choiceIdx_mem (st : NMat) (u : ℝ) :
    outcomes.getD (choiceIdx st u) (0, 0) ∈ outcomes := by
  unfold choiceIdx
  split_ifs <;> decide

/-- The collapsed (pre-renormalization) state carries exactly the sampled
group's probability mass. -/
lemma sumSq_collapse (st : NMat) (ab : ℕ × ℕ) (hmem : ab ∈ outcomes) :
    sumSq (collapse st ab) = outcome_prob st ab := by
  fin_cases hmem <;>
    (unfold sumSq collapse
     simp [Finset.sum_range_succ, mask_00, mask_01, mask_10, mask_11, mask_zero, mask_one,
       outcome_prob, probs, flat]
     try ring)

lemma normOf_collapse_pos (st : NMat) (u : ℝ) (hne : total st ≠ 0)
    (h0 : 0 ≤ u) (h1 : u < 1) :
    normOf (collapse st (outcomes.getD (choiceIdx st u) (0, 0))) ≠ 0 := by
  have hdiv : 0 < outcome_prob st (outcomes.getD (choiceIdx st u) (0, 0)) / total st :=
    chosen_pos st u hne h0 h1
  have hp : 0 < outcome_prob st (outcomes.getD (choiceIdx st u) (0, 0)) := by
    rcases div_pos_iff.mp hdiv with ⟨ha, _⟩ | ⟨_, hb⟩
    · exact ha
    · exact absurd (total_pos st hne) (by linarith)
  rw [normOf_eq_sqrt, sumSq_collapse st _ (choiceIdx_mem st u)]
  exact (Real.sqrt_pos.mpr hp).ne'

/-- A successful measurement returns a unit-norm 8-vector. -/
lemma measure_tq_norm (st : NMat) (u : ℝ) (hne : total st ≠ 0) (h0 : 0 ≤ u) (h1 : u < 1)
    (out : ℕ × ℕ) (ns : NMat) (h : measure_two_qubits st u = some (out, ns)) :
    normOf ns = 1 ∧ ns.r = 8 ∧ ns.c = 1 := by
  unfold measure_two_qubits at h
  rw [if_neg hne] at h
  have hns : ns = normalize (collapse st (outcomes.getD (choiceIdx st u) (0, 0))) :=
    ((Prod.ext_iff.mp (Option.some.inj h)).2).symm
  subst hns
  exact ⟨normOf_normalize (normOf_collapse_pos st u hne h0 h1),
    (normalize_r _).trans rfl, (normalize_c _).trans rfl⟩

/-- Sessions reachable through the public operations, with the two
restrictions the counterexamples force: the initialization amplitudes are
not both zero, and the uniform draw lies in [0, 1). -/
inductive Reach : Sess → Prop where
  | start : Reach sess0
  | init (α β : ℂ) (s : Sess) (hs : Reach s) (hab : ¬(α = 0 ∧ β = 0)) :
      Reach (initState α β s)
  | alice (s : Sess) (hs : Reach s) : Reach (alice_ops s).1
  | meas (u : ℝ) (s : Sess) (hs : Reach s) (h0 : 0 ≤ u) (h1 : u < 1) :
      Reach (measure u s).1
  | bob (s : Sess) (hs : Reach s) : Reach (bob_correction s).1

/-- Every reachable stored composite state is a unit-norm 8 × 1 vector. -/
lemma reach_inv (s : Sess) (h : Reach s) :
    ∀ st, s.state = some st → normOf st = 1 ∧ st.r = 8 ∧ st.c = 1 := by
  induction h with
  | start =>
    intro st hst
    simp [sess0] at hst
  | init α β s hs hab ih =>
    intro st hst
    have hst2 : st = kron2 (normalize (addM (smulM α zero) (smulM β one)))
        (normalize (addM (kron2 zero zero) (kron2 one one))) :=
      (Option.some.inj hst).symm
    subst hst2
    refine ⟨initState_state_norm α β hab, ?_, ?_⟩
    · show (normalize _).r * (normalize _).r = 8
      rw [normalize_r, normalize_r]
      rfl
    · show (normalize _).c * (normalize _).c = 1
      rw [normalize_c, normalize_c]
      rfl
  | alice s hs ih =>
    intro st hst
    obtain ⟨st0, ps0, ar0⟩ := s
    cases st0 with
    | none => simp [alice_ops] at hst
    | some stp =>
      have he : (alice_ops (⟨some stp, ps0, ar0⟩ : Sess)).1.state
          = some (mul U_h (mul U_cnot stp)) := rfl
      rw [he] at hst
      have hst2 : st = mul U_h (mul U_cnot stp) := (Option.some.inj hst).symm
      subst hst2
      obtain ⟨hn, hr, hc⟩ := ih stp rfl
      refine ⟨?_, rfl, hc⟩
      rw [normOf_mul_U_h (mul U_cnot stp) rfl hc, normOf_mul_U_cnot stp hr hc]
      exact hn
  | meas u s hs h0 h1 ih =>
    intro st hst
    obtain ⟨st0, ps0, ar0⟩ := s
    cases st0 with
    | none => simp [measure] at hst
    | some stp =>
      by_cases ht : total stp = 0
      · have hmt : measure_two_qubits stp u = none := by
          unfold measure_two_qubits
          rw [if_pos ht]
        have he : (measure u (⟨some stp, ps0, ar0⟩ : Sess)).1 = ⟨some stp, ps0, ar0⟩ := by
          rw [show measure u (⟨some stp, ps0, ar0⟩ : Sess)
              = (match measure_two_qubits stp u with
                | Option.none => ((⟨some stp, ps0, ar0⟩ : Sess), Res.numErr)
                | Option.some (out, ns) => ((⟨some ns, ps0, some out⟩ : Sess), Res.ok))
              from rfl, hmt]
        rw [he] at hst
        exact ih st hst
      · have hmt : measure_two_qubits stp u
            = some (outcomes.getD (choiceIdx stp u) (0, 0),
                normalize (collapse stp (outcomes.getD (choiceIdx stp u) (0, 0)))) := by
          unfold measure_two_qubits
          rw [if_neg ht]
        have he : (measure u (⟨some stp, ps0, ar0⟩ : Sess)).1
            = ⟨some (normalize (collapse stp (outcomes.getD (choiceIdx stp u) (0, 0)))),
               ps0, some (outcomes.getD (choiceIdx stp u) (0, 0))⟩ := by
          rw [show measure u (⟨some stp, ps0, ar0⟩ : Sess)
              = (match measure_two_qubits stp u with
                | Option.none => ((⟨some stp, ps0, ar0⟩ : Sess), Res.numErr)
                | Option.some (out, ns) => ((⟨some ns, ps0, some out⟩ : Sess), Res.ok))
              from rfl, hmt]
        rw [he] at hst
        have hst2 : st = normalize (collapse stp (outcomes.getD (choiceIdx stp u) (0, 0))) :=
          (Option.some.inj hst).symm
        subst hst2
        exact measure_tq_norm stp u ht h0 h1 _ _ hmt
  | bob s hs ih =>
    intro st hst
    obtain ⟨st0, ps0, ar0⟩ := s
    cases st0 with
    | none => simp [bob_correction] at hst
    | some stp =>
      cases ar0 with
      | none =>
        have he : (bob_correction (⟨some stp, ps0, none⟩ : Sess)).1
            = ⟨some stp, ps0, none⟩ := rfl
        rw [he] at hst
        exact ih st hst
      | some ab =>
        have he : (bob_correction (⟨some stp, ps0, some ab⟩ : Sess)).1
            = ⟨some (mul (kron I [I, (if ab = (0, 0) then I else if ab = (0, 1) then X
                else if ab = (1, 0) then Z else mul Z X)]) stp), ps0, some ab⟩ := rfl
        rw [he] at hst
        have hst2 : st = mul (kron I [I, (if ab = (0, 0) then I else if ab = (0, 1) then X
            else if ab = (1, 0) then Z else mul Z X)]) stp := (Option.some.inj hst).symm
        subst hst2
        obtain ⟨hn, hr, hc⟩ := ih stp rfl
        have hCval : (if ab = (0, 0) then I else if ab = (0, 1) then X
            else if ab = (1, 0) then Z else mul Z X) = I ∨
            (if ab = (0, 0) then I else if ab = (0, 1) then X
            else if ab = (1, 0) then Z else mul Z X) = X ∨
            (if ab = (0, 0) then I else if ab = (0, 1) then X
            else if ab = (1, 0) then Z else mul Z X) = Z ∨
            (if ab = (0, 0) then I else if ab = (0, 1) then X
            else if ab = (1, 0) then Z else mul Z X) = mul Z X := by
          split_ifs
          · exact Or.inl rfl
          · exact Or.inr (Or.inl rfl)
          · exact Or.inr (Or.inr (Or.inl rfl))
          · exact Or.inr (Or.inr (Or.inr rfl))
        rcases hCval with hCv | hCv | hCv | hCv <;> rw [hCv]
        · exact ⟨(normOf_corr I (Or.inl rfl) stp hr hc).trans hn, rfl, hc⟩
        · exact ⟨(normOf_corr X (Or.inr (Or.inl rfl)) stp hr hc).trans hn, rfl, hc⟩
        · exact ⟨(normOf_corr Z (Or.inr (Or.inr (Or.inl rfl))) stp hr hc).trans hn, rfl, hc⟩
        · exact ⟨(normOf_corr (mul Z X) (Or.inr (Or.inr (Or.inr rfl))) stp hr hc).trans hn,
            rfl, hc⟩

/-- C5 amended: for every (α, β) other than (0, 0), `initialize` stores a
unit-norm ψ and a unit-norm composite state; and along every reachable
session (initializations with (α, β) ≠ (0, 0), draws in [0, 1)), the stored
composite state has norm 1 whenever it exists. -/
theorem claim_C5_norms :
    (∀ (α β : ℂ) (s : Sess), ¬(α = 0 ∧ β = 0) →
      (∀ p, (initState α β s).psi = some p → normOf p = 1) ∧
      (∀ st, (initState α β s).state = some st → normOf st = 1)) ∧
    (∀ s : Sess, Reach s → ∀ st, s.state = some st → normOf st = 1) := by
  constructor
  · intro α β s hab
    constructor
    · intro p hp
      have hp2 : p = normalize (addM (smulM α zero) (smulM β one)) :=
        (Option.some.inj hp).symm
      subst hp2
      exact psi_norm_one α β hab
    · intro st hst
      have hst2 : st = kron2 (normalize (addM (smulM α zero) (smulM β one)))
          (normalize (addM (kron2 zero zero) (kron2 one one))) :=
        (Option.some.inj hst).symm
      subst hst2
      exact initState_state_norm α β hab
  · intro s h st hst
    exact (reach_inv s h st hst).1

/-- C5 counterexample: `initialize(0, 0)` parses, yet the stored ψ (the
unnormalized zero vector, returned unchanged by `normalize`) has norm 0,
not 1. -/
theorem claim_C5_counterexample :
    (initState 0 0 sess0).psi = some (normalize (addM (smulM 0 zero) (smulM 0 one))) ∧
    normOf (normalize (addM (smulM 0 zero) (smulM 0 one))) = 0 ∧
    normOf (normalize (addM (smulM 0 zero) (smulM 0 one))) ≠ 1 := by
  have h0 : normOf (normalize (addM (smulM 0 zero) (smulM 0 one))) = 0 := by
    rw [normOf_eq_zero_iff]
    intro i hi j hj
    apply normalize_entry_zero
    simp [addM, smulM]
  refine ⟨rfl, h0, ?_⟩
  rw [h0]
  norm_num

/-- Witness for `claim_C5_norms`: the canonical `initialize(0.6, 0.8)`. -/
theorem claim_C5_norms_witness :
    ¬(((0.6 : ℝ) : ℂ) = 0 ∧ ((0.8 : ℝ) : ℂ) = 0) ∧
    run0.psi = some psiV ∧ normOf psiV = 1 ∧
    run0.state = some S0v ∧ normOf S0v = 1 := by
  have hab : ¬(((0.6 : ℝ) : ℂ) = 0 ∧ ((0.8 : ℝ) : ℂ) = 0) := by
    intro hcontra
    have := hcontra.1
    rw [Complex.ofReal_eq_zero] at this
    norm_num at this
  have hpsi : run0.psi = some psiV := by rw [run0_eval]
  have hst : run0.state = some S0v := by rw [run0_eval]
  exact ⟨hab, hpsi, (claim_C5_norms.1 _ _ sess0 hab).1 psiV hpsi,
    hst, claim_C5_norms.2 run0 (Reach.init _ _ sess0 Reach.start hab) S0v hst⟩

end

end QTS
